import Mathlib

/-!
Shallow embedding of `src/OCR_Trans.py` (PDF-to-translated-text service).

Strings are modelled as `List Char`.  `None`-returning Python capabilities
that the code coerces with `or ""` are modelled as already-coerced strings.
The whitespace set is the ASCII whitespace set recognised by Python's
`str.strip` / `str.split`.
-/

set_option maxRecDepth 100000

namespace PDFTranslate

/-- ASCII whitespace, as recognised by Python `str.strip()` / `str.split()`. -/
def isSpace (c : Char) : Bool :=
  c = ' ' || c = '\t' || c = '\n' || c = '\r' || c = '\x0b' || c = '\x0c'

/-- Python `s.strip()`: drop leading and trailing whitespace. -/
def strip (l : List Char) : List Char :=
  ((l.dropWhile isSpace).reverse.dropWhile isSpace).reverse

/-- Python `len("".join(text.split()))`: the number of non-whitespace
characters of `text` (splitting on whitespace runs and re-joining deletes
exactly the whitespace). -/
def countNonWS (l : List Char) : Nat :=
  (l.filter (fun c => !isSpace c)).length

/-- `true` iff the list contains two consecutive newline characters,
i.e. contains the separator `"\n\n"` as a substring. -/
def containsNN : List Char → Bool
  | [] => false
  | [_] => false
  | a :: b :: rest => (a = '\n' && b = '\n') || containsNN (b :: rest)

/-- Prepend a character to the first piece of a split result (the result of
`splitNN` is never empty, but the `[]` case keeps the function total). -/
def consHead (c : Char) : List (List Char) → List (List Char)
  | [] => [[c]]
  | h :: t => (c :: h) :: t

/-- Python `s.split("\n\n")`: split on non-overlapping occurrences of the
two-newline separator, scanned left to right. -/
def splitNN : List Char → List (List Char)
  | [] => [[]]
  | [c] => [[c]]
  | a :: b :: rest =>
    if a = '\n' && b = '\n' then [] :: splitNN rest
    else consHead a (splitNN (b :: rest))

/-- Python `"\n\n".join(bufs)`. -/
def joinNN (bufs : List (List Char)) : List Char :=
  (bufs.intersperse ['\n', '\n']).flatten

/-- Fuel-indexed version of the `while start < len(p)` hard-split loop of
`chunk_text` (`src/OCR_Trans.py` lines 70-74).  Each iteration emits the next
`maxLen`-sized slice and drops it; when `0 < maxLen`, each iteration consumes
at least one character, so fuel `p.length` never runs out. -/
def hardSplitAux (maxLen : Nat) : Nat → List Char → List (List Char)
  | _, [] => []
  | 0, _ :: _ => []
  | fuel + 1, c :: rest => (c :: rest).take maxLen :: hardSplitAux maxLen fuel ((c :: rest).drop maxLen)

/-- The `while start < len(p)` hard-split loop of `chunk_text`
(`src/OCR_Trans.py` lines 70-74): consecutive `max_len`-sized slices of `p`.
The Python loop never terminates when `max_len = 0`; the model returns `[]`
there, and every theorem about it assumes `0 < max_len`. -/
def hardSplit (maxLen : Nat) (p : List Char) : List (List Char) :=
  hardSplitAux maxLen p.length p

/-- The `for p in paragraphs` loop of `chunk_text`
(`src/OCR_Trans.py` lines 63-85), including the final flush.
State: remaining paragraphs, the buffer `buf`, the running counter `cur`.
In the Python source the counter update is
`cur += len(p) + (2 if buf else 0)` and runs after `buf.append(p)`, where
`buf` is always non-empty, so the increment is unconditionally
`len(p) + 2`. -/
def chunkLoop (maxLen : Nat) : List (List Char) → List (List Char) → Nat → List (List Char)
  | [], buf, _ => if buf.isEmpty then [] else [joinNN buf]
  | p :: ps, buf, cur =>
    if maxLen < p.length then
      (if buf.isEmpty then [] else [joinNN buf]) ++ hardSplit maxLen p ++ chunkLoop maxLen ps [] 0
    else if cur + p.length + (if buf.isEmpty then 0 else 2) ≤ maxLen then
      chunkLoop maxLen ps (buf ++ [p]) (cur + p.length + 2)
    else
      joinNN buf :: chunkLoop maxLen ps [p] p.length

/-- The paragraph list of `chunk_text`:
`[p.strip() for p in s.split("\n\n") if p.strip()]`. -/
def paragraphs (s : List Char) : List (List Char) :=
  ((splitNN s).map strip).filter (fun p => !p.isEmpty)

/-- `chunk_text` (`src/OCR_Trans.py` lines 50-87). -/
def chunk_text (maxLen : Nat) (s : List Char) : List (List Char) :=
  if s.isEmpty then []
  else chunkLoop maxLen (paragraphs s) [] 0

/-- A document page, as seen by `extract_text_with_ocr`: the text native
extraction would return (`page.get_text("text") or ""`) and the text the OCR
capability would return for its rasterization
(`pytesseract.image_to_string(img, ...) or ""`).  Both black-box capabilities
are modelled by their already-coerced string outputs. -/
structure Page where
  nativeText : List Char
  ocrText : List Char

/-- The per-page body of `extract_text_with_ocr`
(`src/OCR_Trans.py` lines 29-43): pick native text, or the OCR text when the
native text has fewer than 40 non-whitespace characters.  The boolean records
whether the OCR capability was invoked (the code only calls it inside the
`meaningful_len < 40` branch). -/
def extractPage (pg : Page) : List Char × Bool :=
  if countNonWS pg.nativeText < 40 then (pg.ocrText, true) else (pg.nativeText, false)

/-- The page-boundary marker `f"\n\n===== Page {i+1} =====\n"` for the
1-based page number `n`. -/
def pageMarker (n : Nat) : List Char :=
  "\n\n===== Page ".data ++ (toString n).data ++ " =====\n".data

/-- One element of `parts`: `f"\n\n===== Page {i+1} =====\n{text.strip()}"`
for the 0-based page index `i`. -/
def pageSection (i : Nat) (pg : Page) : List Char :=
  pageMarker (i + 1) ++ strip (extractPage pg).1

/-- The `for i, page in enumerate(doc)` loop of `extract_text_with_ocr`
(`src/OCR_Trans.py` lines 27-46), accumulating `parts`. -/
def extractLoop : Nat → List Page → List (List Char) → List (List Char)
  | _, [], parts => parts
  | i, pg :: rest, parts => extractLoop (i + 1) rest (parts ++ [pageSection i pg])

/-- `extract_text_with_ocr` (`src/OCR_Trans.py` lines 17-48):
`"".join(parts).strip()` over the accumulated page sections. -/
def extract_text_with_ocr (pages : List Page) : List Char :=
  strip (extractLoop 0 pages []).flatten

/-- The `for chunk in chunk_text(...)` loop of `translate_text`
(`src/OCR_Trans.py` lines 98-99).  The translation capability
`translator.translate` may fail (raise), modelled by `Option`; a failure
aborts the loop and the whole call yields no result. -/
def translateLoop (f : List Char → Option (List Char)) :
    List (List Char) → List (List Char) → Option (List (List Char))
  | [], parts => some parts
  | c :: cs, parts =>
    match f c with
    | none => none
    | some t => translateLoop f cs (parts ++ [t])

/-- `translate_text` (`src/OCR_Trans.py` lines 89-101): empty input yields
the empty string; otherwise translate each chunk of `chunk_text(text, 4500)`
in order and join the translations with `"\n\n"`. -/
def translate_text (f : List Char → Option (List Char)) (text : List Char) :
    Option (List Char) :=
  if text.isEmpty then some []
  else (translateLoop f (chunk_text 4500 text) []).map joinNN

/-- Fragment of the recovered paragraph sequence contributed by one input
paragraph: an oversized paragraph appears as its hard-split slices, any other
paragraph as itself. -/
def fragment (maxLen : Nat) (p : List Char) : List (List Char) :=
  if maxLen < p.length then hardSplit maxLen p else [p]

/-- `true` iff the list is empty or starts with a non-whitespace character. -/
def headNotSpace : List Char → Bool
  | [] => true
  | c :: _ => !isSpace c

/-- `true` iff the list is empty or ends with a non-whitespace character. -/
def lastNotSpace (p : List Char) : Bool :=
  headNotSpace p.reverse

/-- A string that is already in the shape of one trimmed, non-empty paragraph:
non-empty, free of blank-line separators, and with non-whitespace first and
last characters. -/
def cleanPara (p : List Char) : Bool :=
  !p.isEmpty && !containsNN p && headNotSpace p && lastNotSpace p

/-! ### Lemmas about `joinNN` -/

theorem joinNN_nil : joinNN [] = [] := rfl

theorem joinNN_singleton (p : List Char) : joinNN [p] = p := by
  simp [joinNN]

theorem joinNN_cons_cons (p q : List Char) (t : List (List Char)) :
    joinNN (p :: q :: t) = p ++ '\n' :: '\n' :: joinNN (q :: t) := by
  simp [joinNN, List.intersperse_cons_cons]

theorem joinNN_append_singleton (buf : List (List Char)) (p : List Char) :
    joinNN (buf ++ [p]) = if buf.isEmpty then p else joinNN buf ++ '\n' :: '\n' :: p := by
  induction buf with
  | nil => simp [joinNN_singleton]
  | cons b t ih =>
    cases t with
    | nil => simp [joinNN_cons_cons, joinNN_singleton]
    | cons q t' =>
      simp only [List.cons_append, joinNN_cons_cons, List.isEmpty_cons] at *
      rw [ih]
      simp

theorem joinNN_ne_nil {buf : List (List Char)} (h : buf ≠ [])
    (h2 : ∀ b ∈ buf, b ≠ []) : joinNN buf ≠ [] := by
  cases buf with
  | nil => exact absurd rfl h
  | cons b t =>
    have hb : b ≠ [] := h2 b (List.mem_cons_self ..)
    cases t with
    | nil => simpa [joinNN_singleton] using hb
    | cons q t' =>
      rw [joinNN_cons_cons]
      cases b with
      | nil => exact absurd rfl hb
      | cons c r => simp

/-! ### Lemmas about `containsNN` -/

theorem containsNN_cons (a : Char) (l : List Char) :
    containsNN (a :: l) = false ↔
      ¬(a = '\n' ∧ l.head? = some '\n') ∧ containsNN l = false := by
  cases l with
  | nil => simp [containsNN]
  | cons b r =>
    simp only [containsNN, Bool.or_eq_false_iff, Bool.and_eq_false_iff,
      decide_eq_false_iff_not, List.head?_cons, Option.some.injEq]
    constructor
    · rintro ⟨h1, h2⟩
      refine ⟨?_, h2⟩
      rintro ⟨ha, hb⟩
      cases h1 with
      | inl h => exact h ha
      | inr h => exact h hb
    · rintro ⟨h1, h2⟩
      refine ⟨?_, h2⟩
      by_cases ha : a = '\n'
      · exact Or.inr (fun hb => h1 ⟨ha, hb⟩)
      · exact Or.inl ha

theorem containsNN_append_false {xs ys : List Char}
    (h : containsNN (xs ++ ys) = false) :
    containsNN xs = false ∧ containsNN ys = false := by
  induction xs with
  | nil => exact ⟨rfl, h⟩
  | cons x xs ih =>
    rw [List.cons_append, containsNN_cons] at h
    obtain ⟨hpair, hrest⟩ := h
    obtain ⟨h1, h2⟩ := ih hrest
    refine ⟨?_, h2⟩
    rw [containsNN_cons]
    refine ⟨?_, h1⟩
    rintro ⟨hx, hh⟩
    apply hpair
    refine ⟨hx, ?_⟩
    cases xs with
    | nil => cases hh
    | cons z zs => simpa using hh

theorem containsNN_dropWhile_false (q : Char → Bool) :
    ∀ {l : List Char}, containsNN l = false → containsNN (l.dropWhile q) = false := by
  intro l
  induction l with
  | nil => exact fun h => h
  | cons c rest ih =>
    intro h
    rw [List.dropWhile_cons]
    split
    · exact ih ((containsNN_cons ..).mp h).2
    · exact h

theorem containsNN_strip {l : List Char} (h : containsNN l = false) :
    containsNN (strip l) = false := by
  have hu : containsNN (l.dropWhile isSpace) = false := containsNN_dropWhile_false _ h
  have hdecomp : ((l.dropWhile isSpace).reverse.dropWhile isSpace).reverse
      ++ ((l.dropWhile isSpace).reverse.takeWhile isSpace).reverse
      = l.dropWhile isSpace := by
    rw [← List.reverse_append, List.takeWhile_append_dropWhile, List.reverse_reverse]
  rw [← hdecomp] at hu
  exact (containsNN_append_false hu).1

/-! ### Lemmas about `strip` -/

theorem head?_dropWhile_false (q : Char → Bool) :
    ∀ (l : List Char) (c : Char), (l.dropWhile q).head? = some c → q c = false := by
  intro l
  induction l with
  | nil => intro c h; cases h
  | cons a rest ih =>
    intro c h
    rw [List.dropWhile_cons] at h
    split at h
    · exact ih c h
    · next hq =>
      simp only [List.head?_cons, Option.some.injEq] at h
      subst h
      exact Bool.eq_false_iff.mpr hq

theorem strip_getLast?_not_space {l : List Char} {c : Char}
    (h : (strip l).getLast? = some c) : isSpace c = false := by
  unfold strip at h
  rw [List.getLast?_reverse] at h
  exact head?_dropWhile_false isSpace _ c h

theorem dropWhile_eq_self_of_head (q : Char → Bool) (l : List Char)
    (h : ∀ c, l.head? = some c → q c = false) : l.dropWhile q = l := by
  cases l with
  | nil => rfl
  | cons a rest =>
    rw [List.dropWhile_cons, h a rfl]
    simp

theorem strip_eq_self {l : List Char}
    (hhead : ∀ c, l.head? = some c → isSpace c = false)
    (hlast : ∀ c, l.getLast? = some c → isSpace c = false) : strip l = l := by
  unfold strip
  rw [dropWhile_eq_self_of_head isSpace l hhead]
  rw [dropWhile_eq_self_of_head isSpace l.reverse (by simpa [List.head?_reverse] using hlast)]
  exact List.reverse_reverse l

/-! ### Lemmas about `splitNN` -/

theorem splitNN_nil : splitNN [] = [[]] := rfl

theorem splitNN_single (c : Char) : splitNN [c] = [[c]] := rfl

theorem splitNN_cons_cons (a b : Char) (rest : List Char) :
    splitNN (a :: b :: rest) =
      if a = '\n' && b = '\n' then [] :: splitNN rest
      else consHead a (splitNN (b :: rest)) := by
  rw [splitNN]

theorem consHead_ne_nil (c : Char) (L : List (List Char)) : consHead c L ≠ [] := by
  cases L <;> simp [consHead]

theorem splitNN_ne_nil (l : List Char) : splitNN l ≠ [] := by
  match l with
  | [] => simp [splitNN_nil]
  | [c] => simp [splitNN_single]
  | a :: b :: rest =>
    rw [splitNN_cons_cons]
    split
    · simp
    · exact consHead_ne_nil _ _

theorem splitNN_head_shape (b : Char) (rest : List Char) :
    ∀ h t, splitNN (b :: rest) = h :: t → h = [] ∨ ∃ h2, h = b :: h2 := by
  intro h t heq
  cases rest with
  | nil =>
    rw [splitNN_single] at heq
    cases heq
    exact Or.inr ⟨[], rfl⟩
  | cons b' rest' =>
    rw [splitNN_cons_cons] at heq
    split at heq
    · cases heq
      exact Or.inl rfl
    · cases hsp : splitNN (b' :: rest') with
      | nil => exact absurd hsp (splitNN_ne_nil _)
      | cons h0 t0 =>
        rw [hsp] at heq
        simp only [consHead] at heq
        cases heq
        exact Or.inr ⟨h0, rfl⟩

theorem containsNN_splitNN : ∀ (l : List Char), ∀ p ∈ splitNN l, containsNN p = false := by
  intro l
  induction l using splitNN.induct with
  | case1 =>
    intro p hp
    rw [splitNN_nil, List.mem_singleton] at hp
    subst hp
    rfl
  | case2 c =>
    intro p hp
    rw [splitNN_single, List.mem_singleton] at hp
    subst hp
    simp [containsNN]
  | case3 a b rest hcond ih =>
    intro p hp
    rw [splitNN_cons_cons, if_pos hcond, List.mem_cons] at hp
    rcases hp with rfl | hp
    · rfl
    · exact ih p hp
  | case4 a b rest hcond ih =>
    intro p hp
    rw [splitNN_cons_cons, if_neg hcond] at hp
    cases hsp : splitNN (b :: rest) with
    | nil => exact absurd hsp (splitNN_ne_nil _)
    | cons h0 t0 =>
      rw [hsp] at hp
      simp only [consHead, List.mem_cons] at hp
      rcases hp with rfl | hp
      · have hh0 : containsNN h0 = false := ih h0 (hsp ▸ List.mem_cons_self ..)
        rw [containsNN_cons]
        refine ⟨?_, hh0⟩
        rintro ⟨ha, hhead⟩
        rcases splitNN_head_shape b rest h0 t0 hsp with rfl | ⟨h2, rfl⟩
        · cases hhead
        · simp only [List.head?_cons, Option.some.injEq] at hhead
          apply hcond
          subst ha hhead
          simp
      · exact ih p (hsp ▸ List.mem_cons_of_mem _ hp)

theorem splitNN_eq_singleton {l : List Char} (h : containsNN l = false) :
    splitNN l = [l] := by
  induction l with
  | nil => rfl
  | cons a p ih =>
    cases p with
    | nil => rfl
    | cons b p' =>
      rw [containsNN_cons] at h
      obtain ⟨hpair, hrest⟩ := h
      rw [splitNN_cons_cons, if_neg, ih hrest]
      · rfl
      · simp only [Bool.and_eq_true, decide_eq_true_eq, not_and]
        intro ha hb
        exact hpair ⟨ha, by simp [hb]⟩

theorem splitNN_append_sep (m : List Char) :
    ∀ p : List Char, containsNN p = false → p.getLast? ≠ some '\n' →
      splitNN (p ++ '\n' :: '\n' :: m) = p :: splitNN m := by
  intro p
  induction p with
  | nil =>
    intro _ _
    rw [List.nil_append, splitNN_cons_cons, if_pos (by simp)]
  | cons a p ih =>
    intro hnn hlast
    cases p with
    | nil =>
      have ha : a ≠ '\n' := by
        intro h
        exact hlast (by simp [h])
      rw [List.cons_append, List.nil_append, splitNN_cons_cons,
        if_neg (by simp [ha]), splitNN_cons_cons, if_pos (by simp)]
      rfl
    | cons b p' =>
      rw [containsNN_cons] at hnn
      obtain ⟨hpair, hrest⟩ := hnn
      have hlast' : (b :: p').getLast? ≠ some '\n' := by
        rwa [List.getLast?_cons_cons] at hlast
      have hcond : ¬(a = '\n' && b = '\n') = true := by
        simp only [Bool.and_eq_true, decide_eq_true_eq, not_and]
        intro ha hb
        exact hpair ⟨ha, by simp [hb]⟩
      show splitNN (a :: b :: (p' ++ '\n' :: '\n' :: m)) = (a :: b :: p') :: splitNN m
      rw [splitNN_cons_cons, if_neg hcond]
      rw [show b :: (p' ++ '\n' :: '\n' :: m) = (b :: p') ++ '\n' :: '\n' :: m from rfl,
        ih hrest hlast']
      rfl

theorem splitNN_joinNN :
    ∀ L : List (List Char), L ≠ [] →
      (∀ p ∈ L, containsNN p = false ∧ p.getLast? ≠ some '\n') →
      splitNN (joinNN L) = L := by
  intro L
  induction L with
  | nil => intro h; exact absurd rfl h
  | cons p t ih =>
    intro _ hgood
    cases t with
    | nil =>
      rw [joinNN_singleton]
      exact splitNN_eq_singleton (hgood p (List.mem_cons_self ..)).1
    | cons q t' =>
      rw [joinNN_cons_cons]
      have hp := hgood p (List.mem_cons_self ..)
      rw [splitNN_append_sep _ p hp.1 hp.2]
      rw [ih (by simp) (fun r hr => hgood r (List.mem_cons_of_mem _ hr))]

/-! ### Properties of the paragraph list -/

theorem paragraphs_good (s : List Char) :
    ∀ p ∈ paragraphs s, p ≠ [] ∧ containsNN p = false ∧ p.getLast? ≠ some '\n' := by
  intro p hp
  unfold paragraphs at hp
  rw [List.mem_filter] at hp
  obtain ⟨hmem, hne⟩ := hp
  rw [List.mem_map] at hmem
  obtain ⟨piece, hpiece, rfl⟩ := hmem
  have h1 : containsNN piece = false := containsNN_splitNN s piece hpiece
  refine ⟨by simpa using hne, containsNN_strip h1, ?_⟩
  intro hl
  have := strip_getLast?_not_space hl
  exact absurd this (by decide)

/-! ### Lemmas about `hardSplitAux` -/

theorem hardSplitAux_nil (maxLen fuel : Nat) : hardSplitAux maxLen fuel [] = [] := by
  cases fuel <;> rfl

theorem length_le_hardSplitAux (maxLen : Nat) :
    ∀ (fuel : Nat) (p : List Char), ∀ c ∈ hardSplitAux maxLen fuel p, c.length ≤ maxLen := by
  intro fuel
  induction fuel with
  | zero =>
    intro p c hc
    cases p <;> simp [hardSplitAux_nil, hardSplitAux] at hc
  | succ n ih =>
    intro p c hc
    cases p with
    | nil => simp [hardSplitAux_nil] at hc
    | cons x rest =>
      rw [hardSplitAux] at hc
      rcases List.mem_cons.mp hc with rfl | hc
      · rw [List.length_take]
        exact min_le_left _ _
      · exact ih _ c hc

theorem ne_nil_mem_hardSplitAux (maxLen : Nat) (hm : 0 < maxLen) :
    ∀ (fuel : Nat) (p : List Char), ∀ c ∈ hardSplitAux maxLen fuel p, c ≠ [] := by
  intro fuel
  induction fuel with
  | zero =>
    intro p c hc
    cases p <;> simp [hardSplitAux_nil, hardSplitAux] at hc
  | succ n ih =>
    intro p c hc
    cases p with
    | nil => simp [hardSplitAux_nil] at hc
    | cons x rest =>
      rw [hardSplitAux] at hc
      rcases List.mem_cons.mp hc with rfl | hc
      · obtain ⟨m, rfl⟩ : ∃ m, maxLen = m + 1 :=
          ⟨maxLen - 1, by omega⟩
        rw [List.take_succ_cons]
        simp
      · exact ih _ c hc

theorem flatten_hardSplitAux (maxLen : Nat) (hm : 0 < maxLen) :
    ∀ (fuel : Nat) (p : List Char), p.length ≤ fuel →
      (hardSplitAux maxLen fuel p).flatten = p := by
  intro fuel
  induction fuel with
  | zero =>
    intro p hp
    cases p with
    | nil => rfl
    | cons x rest => simp at hp
  | succ n ih =>
    intro p hp
    cases p with
    | nil => rfl
    | cons x rest =>
      rw [hardSplitAux, List.flatten_cons, ih _ ?_, List.take_append_drop]
      rw [List.length_drop]
      simp only [List.length_cons] at hp ⊢
      omega

theorem containsNN_mem_hardSplitAux (maxLen : Nat) :
    ∀ (fuel : Nat) (p : List Char), containsNN p = false →
      ∀ c ∈ hardSplitAux maxLen fuel p, containsNN c = false := by
  intro fuel
  induction fuel with
  | zero =>
    intro p _ c hc
    cases p <;> simp [hardSplitAux_nil, hardSplitAux] at hc
  | succ n ih =>
    intro p hp c hc
    cases p with
    | nil => simp [hardSplitAux_nil] at hc
    | cons x rest =>
      have hsplit :
          containsNN ((x :: rest).take maxLen) = false
          ∧ containsNN ((x :: rest).drop maxLen) = false :=
        containsNN_append_false (by rw [List.take_append_drop]; exact hp)
      rw [hardSplitAux] at hc
      rcases List.mem_cons.mp hc with rfl | hc
      · exact hsplit.1
      · exact ih _ hsplit.2 c hc

theorem dropLast_hardSplitAux_length (maxLen : Nat) :
    ∀ (fuel : Nat) (p : List Char),
      ∀ c ∈ (hardSplitAux maxLen fuel p).dropLast, c.length = maxLen := by
  intro fuel
  induction fuel with
  | zero =>
    intro p c hc
    cases p <;> simp [hardSplitAux_nil, hardSplitAux] at hc
  | succ n ih =>
    intro p c hc
    cases p with
    | nil => simp [hardSplitAux_nil] at hc
    | cons x rest =>
      rw [hardSplitAux] at hc
      cases htail : hardSplitAux maxLen n ((x :: rest).drop maxLen) with
      | nil => rw [htail] at hc; simp at hc
      | cons c0 t0 =>
        rw [htail, List.dropLast_cons₂] at hc
        rcases List.mem_cons.mp hc with rfl | hc
        · have hd : (x :: rest).drop maxLen ≠ [] := by
            intro hd
            rw [hd, hardSplitAux_nil] at htail
            cases htail
          rw [List.length_take]
          have : maxLen < (x :: rest).length := by
            by_contra hcon
            push_neg at hcon
            exact hd (List.drop_eq_nil_of_le hcon)
          omega
        · rw [← htail] at hc
          exact ih _ c hc

/-! ### Wrappers for `hardSplit` -/

theorem length_le_mem_hardSplit (maxLen : Nat) (p : List Char) :
    ∀ c ∈ hardSplit maxLen p, c.length ≤ maxLen :=
  length_le_hardSplitAux maxLen p.length p

theorem flatten_hardSplit (maxLen : Nat) (hm : 0 < maxLen) (p : List Char) :
    (hardSplit maxLen p).flatten = p :=
  flatten_hardSplitAux maxLen hm p.length p le_rfl

theorem dropLast_hardSplit_length (maxLen : Nat) (p : List Char) :
    ∀ c ∈ (hardSplit maxLen p).dropLast, c.length = maxLen :=
  dropLast_hardSplitAux_length maxLen p.length p

/-! ### Lemmas about `chunkLoop` -/

theorem chunkLoop_nil (maxLen : Nat) (buf : List (List Char)) (cur : Nat) :
    chunkLoop maxLen [] buf cur = if buf.isEmpty then [] else [joinNN buf] := rfl

theorem chunkLoop_cons (maxLen : Nat) (p : List Char) (ps buf : List (List Char)) (cur : Nat) :
    chunkLoop maxLen (p :: ps) buf cur =
      if maxLen < p.length then
        (if buf.isEmpty then [] else [joinNN buf]) ++ hardSplit maxLen p
          ++ chunkLoop maxLen ps [] 0
      else if cur + p.length + (if buf.isEmpty then 0 else 2) ≤ maxLen then
        chunkLoop maxLen ps (buf ++ [p]) (cur + p.length + 2)
      else
        joinNN buf :: chunkLoop maxLen ps [p] p.length := rfl

theorem chunkLoop_length_le (maxLen : Nat) :
    ∀ (ps buf : List (List Char)) (cur : Nat),
      (joinNN buf).length ≤ cur → (joinNN buf).length ≤ maxLen →
      ∀ c ∈ chunkLoop maxLen ps buf cur, c.length ≤ maxLen := by
  intro ps
  induction ps with
  | nil =>
    intro buf cur _ h2 c hc
    rw [chunkLoop_nil] at hc
    split at hc
    · simp at hc
    · rw [List.mem_singleton] at hc
      subst hc
      exact h2
  | cons p ps ih =>
    intro buf cur h1 h2 c hc
    rw [chunkLoop_cons] at hc
    split at hc
    · rw [List.mem_append, List.mem_append] at hc
      rcases hc with (hc | hc) | hc
      · split at hc
        · simp at hc
        · rw [List.mem_singleton] at hc
          subst hc
          exact h2
      · exact length_le_mem_hardSplit maxLen p c hc
      · exact ih [] 0 (by simp [joinNN_nil]) (by simp [joinNN_nil]) c hc
    · next hlen =>
      by_cases hbe : buf.isEmpty = true
      · rw [if_pos hbe] at hc
        split at hc
        · next hfit =>
          refine ih (buf ++ [p]) (cur + p.length + 2) ?_ ?_ c hc
          · rw [joinNN_append_singleton, if_pos hbe]
            omega
          · rw [joinNN_append_singleton, if_pos hbe]
            omega
        · next hfit =>
          rcases List.mem_cons.mp hc with rfl | hc
          · exact h2
          · refine ih [p] p.length ?_ ?_ c hc
            · simp [joinNN_singleton]
            · rw [joinNN_singleton]
              omega
      · rw [if_neg hbe] at hc
        split at hc
        · next hfit =>
          refine ih (buf ++ [p]) (cur + p.length + 2) ?_ ?_ c hc
          · rw [joinNN_append_singleton, if_neg hbe, List.length_append]
            simp only [List.length_cons]
            omega
          · rw [joinNN_append_singleton, if_neg hbe, List.length_append]
            simp only [List.length_cons]
            omega
        · next hfit =>
          rcases List.mem_cons.mp hc with rfl | hc
          · exact h2
          · refine ih [p] p.length ?_ ?_ c hc
            · simp [joinNN_singleton]
            · rw [joinNN_singleton]
              omega

theorem chunkLoop_ne_nil (maxLen : Nat) (hm : 0 < maxLen) :
    ∀ (ps buf : List (List Char)) (cur : Nat),
      (∀ p ∈ ps, p ≠ []) → (∀ b ∈ buf, b ≠ []) → (buf = [] → cur = 0) →
      ∀ c ∈ chunkLoop maxLen ps buf cur, c ≠ [] := by
  intro ps
  induction ps with
  | nil =>
    intro buf cur _ hbuf _ c hc
    rw [chunkLoop_nil] at hc
    split at hc
    · simp at hc
    · next hbe =>
      rw [List.mem_singleton] at hc
      subst hc
      exact joinNN_ne_nil (by simpa [List.isEmpty_iff] using hbe) hbuf
  | cons p ps ih =>
    intro buf cur hps hbuf hinv c hc
    rw [chunkLoop_cons] at hc
    split at hc
    · rw [List.mem_append, List.mem_append] at hc
      rcases hc with (hc | hc) | hc
      · split at hc
        · simp at hc
        · next hbe =>
          rw [List.mem_singleton] at hc
          subst hc
          exact joinNN_ne_nil (by simpa [List.isEmpty_iff] using hbe) hbuf
      · exact ne_nil_mem_hardSplitAux maxLen hm _ p c hc
      · exact ih [] 0 (fun q hq => hps q (List.mem_cons_of_mem _ hq))
          (by simp) (fun _ => rfl) c hc
    · next hlen =>
      have hrec1 : ∀ hc2 : c ∈ chunkLoop maxLen ps (buf ++ [p]) (cur + p.length + 2), c ≠ [] := by
        intro hc2
        refine ih (buf ++ [p]) (cur + p.length + 2)
          (fun q hq => hps q (List.mem_cons_of_mem _ hq)) ?_ (by simp) c hc2
        intro b hb
        rcases List.mem_append.mp hb with hb | hb
        · exact hbuf b hb
        · rw [List.mem_singleton] at hb
          subst hb
          exact hps b (List.mem_cons_self ..)
      have hrec2 : ∀ hc2 : c ∈ chunkLoop maxLen ps [p] p.length, c ≠ [] := by
        intro hc2
        refine ih [p] p.length
          (fun q hq => hps q (List.mem_cons_of_mem _ hq)) ?_ (by simp) c hc2
        intro q hq
        rw [List.mem_singleton] at hq
        subst hq
        exact hps _ (List.mem_cons_self ..)
      by_cases hbe : buf.isEmpty = true
      · rw [if_pos hbe] at hc
        split at hc
        · exact hrec1 hc
        · next hfit =>
          exfalso
          have hcur := hinv (List.isEmpty_iff.mp hbe)
          omega
      · rw [if_neg hbe] at hc
        have hbne : buf ≠ [] := by simpa [List.isEmpty_iff] using hbe
        split at hc
        · exact hrec1 hc
        · rcases List.mem_cons.mp hc with rfl | hc
          · exact joinNN_ne_nil hbne hbuf
          · exact hrec2 hc

theorem flatten_map_splitNN (L : List (List Char))
    (h : ∀ c ∈ L, containsNN c = false) :
    (L.map splitNN).flatten = L := by
  induction L with
  | nil => rfl
  | cons c t ih =>
    rw [List.map_cons, List.flatten_cons, splitNN_eq_singleton (h c (List.mem_cons_self ..)),
      ih (fun d hd => h d (List.mem_cons_of_mem _ hd))]
    rfl

theorem chunkLoop_splitNN_flatten (maxLen : Nat) :
    ∀ (ps buf : List (List Char)) (cur : Nat),
      (∀ p ∈ ps, containsNN p = false ∧ p.getLast? ≠ some '\n') →
      (∀ b ∈ buf, containsNN b = false ∧ b.getLast? ≠ some '\n') →
      (buf = [] → cur = 0) →
      ((chunkLoop maxLen ps buf cur).map splitNN).flatten
        = buf ++ ps.flatMap (fragment maxLen) := by
  intro ps
  induction ps with
  | nil =>
    intro buf cur _ hbuf _
    rw [chunkLoop_nil]
    split
    · next hbe =>
      rw [List.isEmpty_iff.mp hbe]
      rfl
    · next hbe =>
      simp only [List.map_cons, List.map_nil, List.flatten_cons, List.flatten_nil,
        List.append_nil, List.flatMap_nil]
      rw [splitNN_joinNN buf (by simpa [List.isEmpty_iff] using hbe) hbuf]
  | cons p ps ih =>
    intro buf cur hps hbuf hinv
    have hp := hps p (List.mem_cons_self ..)
    have hps' : ∀ q ∈ ps, containsNN q = false ∧ q.getLast? ≠ some '\n' :=
      fun q hq => hps q (List.mem_cons_of_mem _ hq)
    have hbufp : ∀ b ∈ buf ++ [p], containsNN b = false ∧ b.getLast? ≠ some '\n' := by
      intro b hb
      rcases List.mem_append.mp hb with hb | hb
      · exact hbuf b hb
      · rw [List.mem_singleton] at hb
        subst hb
        exact hp
    have hsingp : ∀ q ∈ [p], containsNN q = false ∧ q.getLast? ≠ some '\n' := by
      intro q hq
      rw [List.mem_singleton] at hq
      subst hq
      exact hp
    rw [chunkLoop_cons]
    split
    · next hlen =>
      rw [List.map_append, List.map_append, List.flatten_append, List.flatten_append,
        ih [] 0 hps' (by simp) (fun _ => rfl),
        flatten_map_splitNN (hardSplit maxLen p)
          (fun c hc => containsNN_mem_hardSplitAux maxLen p.length p hp.1 c hc),
        List.flatMap_cons]
      rw [show fragment maxLen p = hardSplit maxLen p from if_pos hlen]
      split
      · next hbe =>
        rw [List.isEmpty_iff.mp hbe]
        simp
      · next hbe =>
        simp only [List.map_cons, List.map_nil, List.flatten_cons, List.flatten_nil,
          List.append_nil, List.nil_append]
        rw [splitNN_joinNN buf (by simpa [List.isEmpty_iff] using hbe) hbuf]
        simp [List.append_assoc]
    · next hlen =>
      have hfrag : fragment maxLen p = [p] := if_neg hlen
      by_cases hbe : buf.isEmpty = true
      · rw [if_pos hbe]
        have hbuf0 : buf = [] := List.isEmpty_iff.mp hbe
        split
        · next hfit =>
          rw [ih (buf ++ [p]) (cur + p.length + 2) hps' hbufp (by simp),
            List.flatMap_cons, hfrag]
          simp [List.append_assoc]
        · next hfit =>
          exfalso
          have hcur := hinv hbuf0
          omega
      · rw [if_neg hbe]
        have hbne : buf ≠ [] := by simpa [List.isEmpty_iff] using hbe
        split
        · next hfit =>
          rw [ih (buf ++ [p]) (cur + p.length + 2) hps' hbufp (by simp),
            List.flatMap_cons, hfrag]
          simp [List.append_assoc]
        · next hfit =>
          rw [List.map_cons, List.flatten_cons, splitNN_joinNN buf hbne hbuf,
            ih [p] p.length hps' hsingp (by simp),
            List.flatMap_cons, hfrag]

/-! ### Remaining helper lemmas -/

theorem headNotSpace_spec {p : List Char} (h : headNotSpace p = true) :
    ∀ c, p.head? = some c → isSpace c = false := by
  intro c hc
  cases p with
  | nil => cases hc
  | cons a rest =>
    simp only [List.head?_cons, Option.some.injEq] at hc
    subst hc
    simpa [headNotSpace] using h

theorem cleanPara_spec {p : List Char} (h : cleanPara p = true) :
    p ≠ [] ∧ containsNN p = false
    ∧ (∀ c, p.head? = some c → isSpace c = false)
    ∧ (∀ c, p.getLast? = some c → isSpace c = false) := by
  unfold cleanPara at h
  simp only [Bool.and_eq_true, Bool.not_eq_true'] at h
  obtain ⟨⟨⟨he, hnn⟩, hh⟩, hl⟩ := h
  refine ⟨by simpa [List.isEmpty_eq_false] using he, hnn, headNotSpace_spec hh, ?_⟩
  intro c hc
  refine headNotSpace_spec (show headNotSpace p.reverse = true from hl) c ?_
  rw [List.head?_reverse]
  exact hc

theorem translateLoop_total (g : List Char → List Char) :
    ∀ (cs parts : List (List Char)),
      translateLoop (fun c => some (g c)) cs parts = some (parts ++ cs.map g) := by
  intro cs
  induction cs with
  | nil => intro parts; simp [translateLoop]
  | cons c cs ih =>
    intro parts
    show translateLoop (fun c => some (g c)) cs (parts ++ [g c])
      = some (parts ++ (c :: cs).map g)
    rw [ih]
    simp

theorem translateLoop_none (f : List Char → Option (List Char)) :
    ∀ (cs parts : List (List Char)) (c : List Char), c ∈ cs → f c = none →
      translateLoop f cs parts = none := by
  intro cs
  induction cs with
  | nil => intro parts c hc _; cases hc
  | cons c0 cs ih =>
    intro parts c hc hf
    show (match f c0 with
      | none => none
      | some t => translateLoop f cs (parts ++ [t])) = none
    cases hf0 : f c0 with
    | none => rfl
    | some t =>
      rcases List.mem_cons.mp hc with rfl | hc
      · rw [hf0] at hf
        cases hf
      · exact ih _ c hc hf

theorem extractLoop_eq :
    ∀ (pgs : List Page) (i : Nat) (parts : List (List Char)),
      extractLoop i pgs parts
        = parts ++ (List.enumFrom i pgs).map (fun x => pageSection x.1 x.2) := by
  intro pgs
  induction pgs with
  | nil => intro i parts; simp [extractLoop]
  | cons pg rest ih =>
    intro i parts
    rw [extractLoop, ih, List.enumFrom_cons]
    simp

theorem mem_dropWhile_of_not (q : Char → Bool) :
    ∀ (l : List Char) (c : Char), c ∈ l → q c = false → c ∈ l.dropWhile q := by
  intro l
  induction l with
  | nil => intro c hc _; cases hc
  | cons a rest ih =>
    intro c hc hq
    rw [List.dropWhile_cons]
    split
    · next ha =>
      rcases List.mem_cons.mp hc with rfl | hc
      · rw [hq] at ha
        cases ha
      · exact ih c hc hq
    · exact hc

theorem mem_strip_of_not_space {l : List Char} {c : Char}
    (hc : c ∈ l) (hq : isSpace c = false) : c ∈ strip l := by
  unfold strip
  rw [List.mem_reverse]
  refine mem_dropWhile_of_not isSpace _ c ?_ hq
  rw [List.mem_reverse]
  exact mem_dropWhile_of_not isSpace l c hc hq

/-! ### Claim theorems -/

/-- C1: for every input string and every `maxLen > 0`, every chunk returned
by `chunk_text` has length at most `maxLen`; the chunks produced by
hard-splitting a paragraph longer than `maxLen` all have length exactly
`maxLen` except the final fragment, which may be shorter (still `≤ maxLen`). -/
theorem chunk_size_bound (s : List Char) (maxLen : Nat) (_hm : 0 < maxLen) :
    (∀ c ∈ chunk_text maxLen s, c.length ≤ maxLen)
    ∧ ∀ p : List Char, maxLen < p.length →
        (∀ c ∈ (hardSplit maxLen p).dropLast, c.length = maxLen)
        ∧ ∀ c ∈ hardSplit maxLen p, c.length ≤ maxLen := by
  constructor
  · intro c hc
    unfold chunk_text at hc
    split at hc
    · simp at hc
    · exact chunkLoop_length_le maxLen (paragraphs s) [] 0
        (by simp [joinNN_nil]) (by simp [joinNN_nil]) c hc
  · intro p _
    exact ⟨dropLast_hardSplit_length maxLen p, length_le_mem_hardSplit maxLen p⟩

/-- Witness for C1 at `maxLen = 3` and a two-paragraph input. -/
theorem chunk_size_bound_witness :
    0 < 3 ∧ ∀ c ∈ chunk_text 3 ("abcde\n\nfg").data, c.length ≤ 3 :=
  ⟨by decide, (chunk_size_bound ("abcde\n\nfg").data 3 (by decide)).1⟩

/-- C10: for every input string and every `maxLen > 0`, every chunk returned
by `chunk_text` is a non-empty string. -/
theorem chunk_nonempty (s : List Char) (maxLen : Nat) (hm : 0 < maxLen) :
    ∀ c ∈ chunk_text maxLen s, c ≠ [] := by
  intro c hc
  unfold chunk_text at hc
  split at hc
  · simp at hc
  · refine chunkLoop_ne_nil maxLen hm (paragraphs s) [] 0 ?_ (by simp) (fun _ => rfl) c hc
    intro p hp
    exact (paragraphs_good s p hp).1

/-- Witness for C10 at `maxLen = 2` and an input forcing a hard split. -/
theorem chunk_nonempty_witness :
    0 < 2 ∧ ∀ c ∈ chunk_text 2 ("abcde\n\nf").data, c ≠ [] :=
  ⟨by decide, chunk_nonempty ("abcde\n\nf").data 2 (by decide)⟩

/-- C3: for every input string and every `maxLen > 0`, splitting each chunk
of `chunk_text` on the blank-line separator and concatenating the resulting
paragraph lists in order yields exactly the trimmed non-empty paragraphs of
the input, in order, each oversized paragraph appearing as its consecutive
hard-split slices; and the hard-split slices of any paragraph concatenate
back to that paragraph exactly. -/
theorem paragraph_round_trip (s : List Char) (maxLen : Nat) (hm : 0 < maxLen) :
    ((chunk_text maxLen s).map splitNN).flatten
      = (paragraphs s).flatMap (fragment maxLen)
    ∧ ∀ p : List Char, (hardSplit maxLen p).flatten = p := by
  constructor
  · unfold chunk_text
    split
    · next he =>
      have hs : s = [] := List.isEmpty_iff.mp he
      subst hs
      rfl
    · refine chunkLoop_splitNN_flatten maxLen (paragraphs s) [] 0 ?_ (by simp) (fun _ => rfl)
      intro p hp
      exact ⟨(paragraphs_good s p hp).2.1, (paragraphs_good s p hp).2.2⟩
  · exact fun p => flatten_hardSplit maxLen hm p

/-- Witness for C3 at `maxLen = 3` and an input whose second paragraph is
hard-split. -/
theorem paragraph_round_trip_witness :
    0 < 3 ∧ ((chunk_text 3 ("ab\n\ncdefg").data).map splitNN).flatten
      = (paragraphs ("ab\n\ncdefg").data).flatMap (fragment 3) :=
  ⟨by decide, (paragraph_round_trip ("ab\n\ncdefg").data 3 (by decide)).1⟩

/-- C4: `extract_text_with_ocr` returns the whole-string trim of the
concatenation, in document page order, of the page marker for page `i + 1`
followed by the trimmed selected text of page `i`; no page section is
omitted (the part list has exactly one entry per page). -/
theorem extract_output_equation (pages : List Page) :
    extract_text_with_ocr pages
      = strip ((pages.enum.map
          (fun x => pageMarker (x.1 + 1) ++ strip (extractPage x.2).1)).flatten)
    ∧ (extractLoop 0 pages []).length = pages.length := by
  constructor
  · unfold extract_text_with_ocr
    rw [extractLoop_eq pages 0 []]
    rfl
  · rw [extractLoop_eq pages 0 []]
    simp

/-- C5: the OCR path is taken for a page exactly when its native text has
fewer than 40 non-whitespace characters; with 40 or more, the native text is
used and the result does not depend on what OCR would return. -/
theorem ocr_fallback_trigger (native ocr ocr2 : List Char) :
    ((extractPage ⟨native, ocr⟩).2 = true ↔ countNonWS native < 40)
    ∧ (40 ≤ countNonWS native →
        (extractPage ⟨native, ocr⟩).1 = native
        ∧ extractPage ⟨native, ocr⟩ = extractPage ⟨native, ocr2⟩) := by
  constructor
  · unfold extractPage
    split
    · next h => simp [h]
    · next h => simp [h]
  · intro h40
    have hn : ¬countNonWS native < 40 := by omega
    unfold extractPage
    rw [if_neg hn, if_neg hn]
    exact ⟨rfl, rfl⟩

/-- Witness for C5 at a 40-character non-whitespace native text. -/
theorem ocr_fallback_trigger_witness :
    40 ≤ countNonWS (List.replicate 40 'a')
    ∧ (extractPage ⟨List.replicate 40 'a', ("x").data⟩).1 = List.replicate 40 'a' :=
  ⟨by decide,
    ((ocr_fallback_trigger (List.replicate 40 'a') ("x").data ("y").data).2 (by decide)).1⟩

/-- C6: with a total translation capability `g`, `translate_text` returns
the blank-line join of the translations of the chunks of
`chunk_text(text, 4500)`, in chunk order, and returns the empty string on
empty input. -/
theorem translate_reassembly (g : List Char → List Char) (text : List Char) :
    translate_text (fun c => some (g c)) text
      = some (joinNN ((chunk_text 4500 text).map g))
    ∧ translate_text (fun c => some (g c)) [] = some [] := by
  constructor
  · unfold translate_text
    split
    · next he =>
      have ht : text = [] := List.isEmpty_iff.mp he
      subst ht
      rfl
    · rw [translateLoop_total g _ []]
      simp
  · rfl

/-- C7: if the translation capability fails on any chunk of the input, the
whole `translate_text` call fails: no partial translation is returned. -/
theorem translate_abort (f : List Char → Option (List Char)) (text c : List Char)
    (hc : c ∈ chunk_text 4500 text) (hf : f c = none) :
    translate_text f text = none := by
  unfold translate_text
  split
  · next he =>
    have ht : text = [] := List.isEmpty_iff.mp he
    subst ht
    exact absurd hc (by simp [chunk_text])
  · rw [translateLoop_none f _ [] c hc hf]
    rfl

/-- Witness for C7: a capability failing on the single chunk of `"ab"`. -/
theorem translate_abort_witness :
    ("ab").data ∈ chunk_text 4500 ("ab").data
    ∧ translate_text (fun _ => none) ("ab").data = none :=
  ⟨by decide, translate_abort (fun _ => none) ("ab").data ("ab").data (by decide) rfl⟩

/-- C9: for every document with at least one page, `extract_text_with_ocr`
returns a non-empty string (every page contributes its marker, whose text
survives the final trim), and its trim is still non-empty, so the
"could not extract any text" branch (which tests the trim of the result) is
reachable only for a zero-page document, where the result is indeed empty. -/
theorem extract_nonempty (pages : List Page) (h : pages ≠ []) :
    (extract_text_with_ocr pages ≠ []
      ∧ strip (extract_text_with_ocr pages) ≠ [])
    ∧ extract_text_with_ocr ([] : List Page) = [] := by
  refine ⟨?_, rfl⟩
  obtain ⟨pg, rest, rfl⟩ : ∃ pg rest, pages = pg :: rest := by
    cases pages with
    | nil => exact absurd rfl h
    | cons pg rest => exact ⟨pg, rest, rfl⟩
  have hmem1 : '=' ∈ pageSection 0 pg := by
    unfold pageSection pageMarker
    refine List.mem_append.mpr (Or.inl ?_)
    refine List.mem_append.mpr (Or.inl ?_)
    decide
  have hmem : '=' ∈ (extractLoop 0 (pg :: rest) []).flatten := by
    rw [extractLoop_eq, List.nil_append, List.enumFrom_cons, List.map_cons, List.flatten_cons]
    exact List.mem_append.mpr (Or.inl hmem1)
  have hsp : isSpace '=' = false := by decide
  have h1 : '=' ∈ extract_text_with_ocr (pg :: rest) := mem_strip_of_not_space hmem hsp
  exact ⟨List.ne_nil_of_mem h1, List.ne_nil_of_mem (mem_strip_of_not_space h1 hsp)⟩

/-- Witness for C9: a one-page document whose page yields no text at all. -/
theorem extract_nonempty_witness :
    ([(⟨[], []⟩ : Page)] ≠ []) ∧ extract_text_with_ocr [⟨[], []⟩] ≠ [] :=
  ⟨by simp, (extract_nonempty [⟨[], []⟩] (by simp)).1.1⟩

/-- C8: for an input of exactly three trimmed paragraphs of lengths 2000,
3000 and 1000 separated by blank lines, `chunk_text` with `maxLen = 4500`
returns exactly two chunks: the first paragraph alone (2000 characters), and
the second and third paragraphs joined by a blank-line separator
(4002 characters). -/
theorem worked_chunking_scenario (P1 P2 P3 : List Char)
    (h1 : P1.length = 2000) (h2 : P2.length = 3000) (h3 : P3.length = 1000)
    (g1 : cleanPara P1 = true) (g2 : cleanPara P2 = true) (g3 : cleanPara P3 = true) :
    chunk_text 4500 (joinNN [P1, P2, P3]) = [P1, joinNN [P2, P3]]
    ∧ P1.length = 2000 ∧ (joinNN [P2, P3]).length = 4002 := by
  obtain ⟨hne1, hnn1, hh1, hl1⟩ := cleanPara_spec g1
  obtain ⟨hne2, hnn2, hh2, hl2⟩ := cleanPara_spec g2
  obtain ⟨hne3, hnn3, hh3, hl3⟩ := cleanPara_spec g3
  have hlastNL : ∀ p : List Char, (∀ c, p.getLast? = some c → isSpace c = false) →
      p.getLast? ≠ some '\n' := by
    intro p hp hcon
    exact absurd (hp '\n' hcon) (by decide)
  have hpar : paragraphs (joinNN [P1, P2, P3]) = [P1, P2, P3] := by
    unfold paragraphs
    rw [splitNN_joinNN [P1, P2, P3] (by simp) ?_]
    · rw [List.map_cons, List.map_cons, List.map_cons, List.map_nil,
        strip_eq_self hh1 hl1, strip_eq_self hh2 hl2, strip_eq_self hh3 hl3]
      simp [List.filter_cons, hne1, hne2, hne3]
    · intro p hp
      simp only [List.mem_cons, List.not_mem_nil, or_false] at hp
      rcases hp with rfl | rfl | rfl
      · exact ⟨hnn1, hlastNL _ hl1⟩
      · exact ⟨hnn2, hlastNL _ hl2⟩
      · exact ⟨hnn3, hlastNL _ hl3⟩
  have hmemne : ∀ b ∈ [P1, P2, P3], b ≠ [] := by
    intro b hb
    simp only [List.mem_cons, List.not_mem_nil, or_false] at hb
    rcases hb with rfl | rfl | rfl
    · exact hne1
    · exact hne2
    · exact hne3
  have hne : joinNN [P1, P2, P3] ≠ [] := joinNN_ne_nil (by simp) hmemne
  have hjlen : (joinNN [P2, P3]).length = 4002 := by
    rw [joinNN_cons_cons, joinNN_singleton, List.length_append]
    simp [h2, h3]
  refine ⟨?_, h1, hjlen⟩
  unfold chunk_text
  rw [if_neg (by simpa [List.isEmpty_iff] using hne), hpar]
  rw [chunkLoop_cons, if_neg (by omega), if_pos (by simp; omega), List.nil_append]
  rw [chunkLoop_cons, if_neg (by omega), if_neg (by simp; omega), joinNN_singleton]
  rw [chunkLoop_cons, if_neg (by omega), if_pos (by simp; omega)]
  rw [chunkLoop_nil, if_neg (by simp)]
  rfl

/-- Witness for C8 at three concrete paragraphs of the stated lengths. -/
theorem worked_chunking_scenario_witness :
    (List.replicate 2000 'a').length = 2000
    ∧ chunk_text 4500
        (joinNN [List.replicate 2000 'a', List.replicate 3000 'b', List.replicate 1000 'c'])
      = [List.replicate 2000 'a', joinNN [List.replicate 3000 'b', List.replicate 1000 'c']] :=
  ⟨by simp,
    (worked_chunking_scenario
      (List.replicate 2000 'a') (List.replicate 3000 'b') (List.replicate 1000 'c')
      (by simp) (by simp) (by simp)
      (by decide) (by decide) (by decide)).1⟩

/-- C2 is violated by the code: on the input `"aaaa\n\nbbbb"` with
`maxLen = 10`, the two paragraphs satisfy `len(p) + len(q) + 2 ≤ maxLen`
(so, per the claim, they should be joined into the single chunk
`"aaaa\n\nbbbb"`), yet `chunk_text` returns them as two separate chunks:
after the first paragraph is appended to the empty buffer, the running
counter is `len(p) + 2 = 6` rather than the joined length `4`, because the
source updates `cur += len(p) + (2 if buf else 0)` after `buf.append(p)`,
where `buf` is always non-empty. -/
theorem greedy_accumulation_divergence :
    ("aaaa").data.length + ("bbbb").data.length + 2 ≤ 10
    ∧ chunk_text 10 ("aaaa\n\nbbbb").data = [("aaaa").data, ("bbbb").data]
    ∧ chunk_text 10 ("aaaa\n\nbbbb").data ≠ [("aaaa\n\nbbbb").data] := by
  refine ⟨by decide, by decide, by decide⟩


end PDFTranslate
